import Mathlib

set_option linter.unusedSectionVars false
set_option linter.unusedVariables false

/-!
Verification of the haste GRU / layer-normalization forward-pass code.

The development shallowly embeds the two source files:

* `lib/layer_norm_forward_gpu.cu.cc` — the `LayerNorm` CUDA kernel and
  `ForwardPass<T>::Run`, which launches it with `blockDim = (4, 256)` and
  `gridDim.x = ceil(batch_size / 4)`.
* `examples/gru.cc` — the `GruInference` driver: buffer allocation and the
  per-timestep `Iterate` call loop.

Machine floating point (`float` / `double`) is modelled by an arbitrary
`Field` carrying an abstract `rsqrt : α → α`, mirroring `template<typename T>`
in the source; memory regions (`T*`) are modelled as total functions `ℕ → α`.
-/

namespace Haste

variable {α : Type} [Field α]

/-- Embedding of the per-worker strided partial sum in the `LayerNorm` kernel:
`for (int i = index; i < hidden_size; i += stride) sum += f[i];`.
For `index < stride` (always true on-device, since `index = threadIdx.y` and
`stride = blockDim.y`) the loop visits exactly the `i < hidden` with
`i % stride = index`. -/
def stridedSum (f : ℕ → α) (hidden index stride : ℕ) : α :=
  ∑ i ∈ (Finset.range hidden).filter (fun i => i % stride = index), f i

/-- One pass of the halving tree reduction in the `LayerNorm` kernel:
`if (index < s) shared[index] += shared[index + s];` performed by every
worker of the row group, barrier-synchronized. -/
def treeStep (g : ℕ → α) (s : ℕ) : ℕ → α :=
  fun i => if i < s then g i + g (i + s) else g i

/-- The reduction loop `for (int s = stride / 2; s > 0; s >>= 1)` of the
`LayerNorm` kernel, acting on the shared-memory row segment `g`. -/
def treeLoop (g : ℕ → α) : ℕ → ℕ → α
  | 0 => g
  | s + 1 => treeLoop (treeStep g (s + 1)) ((s + 1) / 2)
  termination_by s => s
  decreasing_by omega

/-- The complete row reduction of the `LayerNorm` kernel: each worker
`j < stride` deposits its strided partial sum of `f` into shared memory,
the halving tree loop runs from `stride / 2`, and slot `0` is read back. -/
def rowSumKernel (f : ℕ → α) (hidden stride : ℕ) : α :=
  treeLoop (fun j => stridedSum f hidden j stride) (stride / 2) 0

/-- The device memory regions visible to the `LayerNorm` kernel: the
`const T*` inputs `alpha`, `beta`, `x` and the mutable outputs `y`, `cache`. -/
structure LNMem (α : Type) where
  alpha : ℕ → α
  beta : ℕ → α
  x : ℕ → α
  y : ℕ → α
  cache : ℕ → α

/-- Row `r` of a row-major `hidden`-wide matrix, as seen through
`batch_idx = batch * hidden_size` in the kernel. -/
def rowOf (x : ℕ → α) (hidden r : ℕ) : ℕ → α :=
  fun i => x (r * hidden + i)

/-- The epsilon constant `static_cast<T>(1e-5)` of the kernel. -/
def lnEps (α : Type) [Field α] : α := (100000 : α)⁻¹

/-- The kernel's row mean: phase-1 reduction result divided by `hidden_size`,
as in `const T mean = shared[batch_block_idx] / hidden_size;`. -/
def kernelMean (f : ℕ → α) (hidden stride : ℕ) : α :=
  rowSumKernel f hidden stride / (hidden : α)

/-- The kernel's row variance: phase-2 reduction of `diff * diff` (with
`diff = x[i] - mean`) divided by `hidden_size`, the argument of `rsqrt`
before `+ 1e-5` in `const T invstd = rsqrt(shared[...] / hidden_size + 1e-5)`. -/
def kernelVar (f : ℕ → α) (hidden stride : ℕ) : α :=
  rowSumKernel
    (fun i => (f i - kernelMean f hidden stride) * (f i - kernelMean f hidden stride))
    hidden stride / (hidden : α)

/-- The kernel's inverse standard deviation `rsqrt(variance + 1e-5)`,
with `rsqrt` kept abstract (device intrinsic). -/
def kernelInvstd (rs : α → α) (f : ℕ → α) (hidden stride : ℕ) : α :=
  rs (kernelVar f hidden stride + lnEps α)

/-- Embedding of one `LayerNorm<T>` kernel launch over `batch_size` rows of
`hidden_size` elements with row-group size `stride = blockDim.y`.
Workers with `batch >= batch_size` return immediately; each surviving row `r`
writes `y[r * hidden + i] = (x[r * hidden + i] - mean) * invstd * alpha[i] + beta[i]`
for `i < hidden` (the written `y` positions are exactly `[0, batch * hidden)`,
decoded by `j / hidden` and `j % hidden`), and
`cache[r * 2 + 0] = mean`, `cache[r * 2 + 1] = invstd` (the written `cache`
positions are exactly `[0, 2 * batch)`, decoded by `j / 2` and `j % 2`).
`alpha`, `beta`, `x` are `const` and pass through untouched. -/
def LayerNorm (rs : α → α) (batch_size hidden_size stride : ℕ) (m : LNMem α) :
    LNMem α :=
  { m with
    y := fun j =>
      if j < batch_size * hidden_size then
        let r := j / hidden_size
        let i := j % hidden_size
        (m.x j - kernelMean (rowOf m.x hidden_size r) hidden_size stride)
          * kernelInvstd rs (rowOf m.x hidden_size r) hidden_size stride
          * m.alpha i + m.beta i
      else m.y j
    cache := fun j =>
      if j < batch_size * 2 then
        if j % 2 = 0 then
          kernelMean (rowOf m.x hidden_size (j / 2)) hidden_size stride
        else
          kernelInvstd rs (rowOf m.x hidden_size (j / 2)) hidden_size stride
      else m.cache j }

/-- Embedding of `ForwardPass<T>::Run`: it launches `LayerNorm` with
`blockDim = dim3(4, 256)`, so the row-group size is `256`. -/
def ForwardPassRun (rs : α → α) (batch_size hidden_size : ℕ) (m : LNMem α) :
    LNMem α :=
  LayerNorm rs batch_size hidden_size 256 m

/-- Reference row mean (arithmetic mean of the row). -/
def rowMean (f : ℕ → α) (hidden : ℕ) : α :=
  (∑ i ∈ Finset.range hidden, f i) / (hidden : α)

/-- Reference population variance of the row: mean squared deviation. -/
def rowVar (f : ℕ → α) (hidden : ℕ) : α :=
  (∑ i ∈ Finset.range hidden, (f i - rowMean f hidden) ^ 2) / (hidden : α)

/-- Batch-row permutation of a row-major matrix: row `r` of the result is
row `p r` of `x`. -/
def rowPermuteIdx (p : ℕ → ℕ) (hidden : ℕ) (x : ℕ → α) : ℕ → α :=
  fun j => x (p (j / hidden) * hidden + j % hidden)

/-! Kernel launch geometry and memory-access footprint, from
`ForwardPass<T>::Run` (`blockDim = dim3(4, 256)`,
`gridDim.x = (batch_size + blockDim.x - 1) / blockDim.x`) and from the guard
`if (batch >= batch_size) return;` at the top of the `LayerNorm` kernel. -/

/-- The grid size chosen by `ForwardPass::Run`: `(batch_size + 4 - 1) / 4`. -/
def gridDimX (batch_size : ℕ) : ℕ := (batch_size + 4 - 1) / 4

/-- Number of worker rows launched: `gridDim.x * blockDim.x` with
`blockDim.x = 4`; each worker row computes `batch = blockDim.x * blockIdx.x +
threadIdx.x`, covering exactly `[0, gridDimX * 4)`. -/
def numWorkerRows (batch_size : ℕ) : ℕ := gridDimX batch_size * 4

/-- The `x` positions read by worker row `w`: nothing if the guard
`batch >= batch_size` fires, otherwise `x[batch_idx + i]` for `i < hidden`. -/
def xReadIndices (batch_size hidden_size w : ℕ) : Finset ℕ :=
  if w < batch_size then (Finset.range hidden_size).image (fun i => w * hidden_size + i)
  else ∅

/-- The `y` positions written by worker row `w`: nothing if the guard fires,
otherwise `y[batch_idx + i]` for `i < hidden`. -/
def yWriteIndices (batch_size hidden_size w : ℕ) : Finset ℕ :=
  if w < batch_size then (Finset.range hidden_size).image (fun i => w * hidden_size + i)
  else ∅

/-- The `cache` positions written by worker row `w`: nothing if the guard
fires, otherwise `cache[batch * 2 + 0]` and `cache[batch * 2 + 1]`. -/
def cacheWriteIndices (batch_size w : ℕ) : Finset ℕ :=
  if w < batch_size then {w * 2, w * 2 + 1} else ∅

/-! Embedding of the `GruInference` driver from `examples/gru.cc`. -/

/-- Element count of the input pre-activation scratch, allocated once before
the timestep loop: `tmp_Wx_dev(time_steps * batch_size * hidden_size * 3)`. -/
def tmpWxSize (time_steps batch_size hidden_size : ℕ) : ℕ :=
  time_steps * batch_size * hidden_size * 3

/-- Element count of the recurrent pre-activation scratch, allocated once:
`tmp_Rh_dev(batch_size * hidden_size * 3)`. -/
def tmpRhSize (batch_size hidden_size : ℕ) : ℕ :=
  batch_size * hidden_size * 3

/-- Modelled from the spec: the extent of the input pre-activation slice one
`Iterate` call consumes — `batch × (3·hidden)` elements per timestep.
`Iterate`'s implementation is not part of the excerpt; only the slice
footprint handed to it at each call is needed. -/
def wxSliceLen (batch_size hidden_size : ℕ) : ℕ :=
  batch_size * hidden_size * 3

/-- The buffer offsets passed to one `forward.Iterate` call of the timestep
loop: `x_cur_dev = x_dev.data + t * batch_size * input_size`,
`tmp_Wx_cur = tmp_Wx_dev.data + t * batch_size * hidden_size * 3`, and
`tmp_Rh_dev.data` itself (offset `0` into the single recurrent scratch). -/
structure GruCall where
  xOff : ℕ
  wxOff : ℕ
  rhOff : ℕ
  deriving DecidableEq, Repr

/-- The trace of `Iterate` calls issued by `GruInference`: one call per
`t` in `[0, time_steps)`, in order, with the offsets computed in the loop. -/
def gruIterateCalls (time_steps batch_size input_size hidden_size : ℕ) :
    List GruCall :=
  (List.range time_steps).map fun t =>
    { xOff := t * batch_size * input_size
      wxOff := t * batch_size * hidden_size * 3
      rhOff := 0 }

/-- The hidden-state buffer of `GruInference` after the timestep loop.
`h_dev.zero()` initializes it to zeros; each loop iteration calls `Iterate`
with `h_dev.data` as both input and output hidden state.  The per-timestep
effect of `Iterate` on the hidden state is abstracted as an arbitrary state
transformer `step t`; the driver itself only folds it over the timesteps. -/
def gruInferenceH (step : ℕ → (ℕ → α) → (ℕ → α)) (time_steps : ℕ) : ℕ → α :=
  (List.range time_steps).foldl (fun h t => step t h) (fun _ => 0)

/-! Concrete memories used by the witness theorems. -/

/-- A small concrete memory over `ℚ` for exercising the kernel. -/
def lnMemEx : LNMem ℚ where
  alpha := fun _ => 2
  beta := fun _ => 3
  x := fun j => (j : ℚ) + 1
  y := fun _ => 0
  cache := fun _ => 0

/-- A concrete memory whose single row `(1, -1)` has mean `0` and population
variance `1`, with `alpha` all ones and `beta` all zeros. -/
def lnMemUnit : LNMem ℚ where
  alpha := fun _ => 1
  beta := fun _ => 0
  x := fun j => if j = 0 then 1 else if j = 1 then -1 else 0
  y := fun _ => 0
  cache := fun _ => 0

/-! Helper lemmas. -/

theorem treeLoop_zero (g : ℕ → α) : treeLoop g 0 = g := by
  rw [treeLoop]

theorem treeLoop_succ (g : ℕ → α) (s : ℕ) :
    treeLoop g (s + 1) = treeLoop (treeStep g (s + 1)) ((s + 1) / 2) := by
  rw [treeLoop]

/-- Tree-reduction invariant: starting the halving loop at `2 ^ k` computes,
in slot 0, the sum of the first `2 ^ (k + 1)` shared-memory slots. -/
theorem treeLoop_pow_sum (k : ℕ) :
    ∀ g : ℕ → α, treeLoop g (2 ^ k) 0 = ∑ j ∈ Finset.range (2 ^ (k + 1)), g j := by
  induction k with
  | zero =>
    intro g
    show treeLoop g 1 0 = _
    have h12 : (1 : ℕ) / 2 = 0 := rfl
    rw [treeLoop_succ, h12, treeLoop_zero]
    simp [treeStep, Finset.sum_range_succ]
  | succ k ih =>
    intro g
    obtain ⟨s, hs⟩ : ∃ s, 2 ^ (k + 1) = s + 1 :=
      ⟨2 ^ (k + 1) - 1, by have := Nat.one_le_two_pow (n := k + 1); omega⟩
    have hdiv : 2 ^ (k + 1) / 2 = 2 ^ k := by
      rw [pow_succ, Nat.mul_div_cancel]; omega
    rw [hs, treeLoop_succ, ← hs, hdiv, ih]
    have hstep : ∀ j ∈ Finset.range (2 ^ (k + 1)),
        treeStep g (2 ^ (k + 1)) j = g j + g (j + 2 ^ (k + 1)) := by
      intro j hj
      simp only [Finset.mem_range] at hj
      simp [treeStep, hj]
    rw [Finset.sum_congr rfl hstep, Finset.sum_add_distrib]
    have hsplit : ∑ j ∈ Finset.range (2 ^ (k + 1)), g (j + 2 ^ (k + 1))
        = ∑ j ∈ Finset.Ico (2 ^ (k + 1)) (2 ^ (k + 2)), g j := by
      rw [Finset.sum_Ico_eq_sum_range]
      have hlen : 2 ^ (k + 2) - 2 ^ (k + 1) = 2 ^ (k + 1) := by
        rw [pow_succ 2 (k + 1)]; omega
      rw [hlen]
      exact Finset.sum_congr rfl fun j _ => by rw [Nat.add_comm]
    rw [hsplit, Finset.range_eq_Ico,
      Finset.sum_Ico_consecutive g (Nat.zero_le _) (Nat.pow_le_pow_right (by omega) (by omega)),
      ← Finset.range_eq_Ico]

/-- The per-worker strided partial sums tile the row: summed over the whole
worker group they recover the plain row sum. -/
theorem sum_stridedSum (f : ℕ → α) (hidden stride : ℕ) (hstride : 0 < stride) :
    ∑ j ∈ Finset.range stride, stridedSum f hidden j stride
      = ∑ i ∈ Finset.range hidden, f i := by
  unfold stridedSum
  exact Finset.sum_fiberwise_of_maps_to
    (fun i _ => Finset.mem_range.mpr (Nat.mod_lt i hstride)) f

/-- Refinement of the whole two-phase reduction machinery: for any
power-of-two group size, the kernel's strided-plus-tree reduction of `f`
over a row equals the naive sum of the row elements. -/
theorem rowSumKernel_eq (f : ℕ → α) (hidden stride k : ℕ) (hk : stride = 2 ^ k) :
    rowSumKernel f hidden stride = ∑ i ∈ Finset.range hidden, f i := by
  subst hk
  cases k with
  | zero =>
    show treeLoop _ (1 / 2) 0 = _
    have h12 : (1 : ℕ) / 2 = 0 := rfl
    rw [h12, treeLoop_zero]
    unfold stridedSum
    refine Finset.sum_congr ?_ fun _ _ => rfl
    exact Finset.filter_true_of_mem fun i _ => Nat.mod_one i
  | succ k =>
    unfold rowSumKernel
    have hdiv : 2 ^ (k + 1) / 2 = 2 ^ k := by
      rw [pow_succ, Nat.mul_div_cancel]; omega
    rw [hdiv, treeLoop_pow_sum]
    exact sum_stridedSum f hidden (2 ^ (k + 1)) (Nat.pos_pow_of_pos _ (by omega))

/-- For a power-of-two group size the kernel's row mean is the arithmetic
row mean. -/
theorem kernelMean_eq (f : ℕ → α) (hidden stride k : ℕ) (hk : stride = 2 ^ k) :
    kernelMean f hidden stride = rowMean f hidden := by
  unfold kernelMean rowMean
  rw [rowSumKernel_eq f hidden stride k hk]

/-- For a power-of-two group size the kernel's row variance is the population
variance. -/
theorem kernelVar_eq (f : ℕ → α) (hidden stride k : ℕ) (hk : stride = 2 ^ k) :
    kernelVar f hidden stride = rowVar f hidden := by
  unfold kernelVar rowVar
  rw [rowSumKernel_eq _ hidden stride k hk]
  congr 1
  refine Finset.sum_congr rfl fun i _ => ?_
  rw [kernelMean_eq f hidden stride k hk, sq]

/-- Index decoding for the row-major layout: `r * hidden + i` with `i` inside
the row decodes back to row `r`, column `i`. -/
theorem rowMajor_decode (hidden r i : ℕ) (hi : i < hidden) :
    (r * hidden + i) / hidden = r ∧ (r * hidden + i) % hidden = i := by
  have hpos : 0 < hidden := by omega
  constructor
  · rw [Nat.add_comm, Nat.add_mul_div_right i r hpos, Nat.div_eq_of_lt hi, Nat.zero_add]
  · rw [Nat.add_comm, Nat.add_mul_mod_self_right, Nat.mod_eq_of_lt hi]

/-- In-row positions sit inside the `batch * hidden` output extent. -/
theorem rowMajor_lt (batch hidden r i : ℕ) (hr : r < batch) (hi : i < hidden) :
    r * hidden + i < batch * hidden := by
  calc r * hidden + i < r * hidden + hidden := by omega
  _ = (r + 1) * hidden := by ring
  _ ≤ batch * hidden := Nat.mul_le_mul_right hidden hr

/-- Full characterization of the `y` value produced by `ForwardPass::Run`
at row `r`, column `i`: the kernel computes the textbook layer-norm output
with the arithmetic row mean and population row variance. -/
theorem forwardRun_y_eq (rs : α → α) (bs hs : ℕ) (m : LNMem α) (r i : ℕ)
    (hr : r < bs) (hi : i < hs) :
    (ForwardPassRun rs bs hs m).y (r * hs + i)
      = (m.x (r * hs + i) - rowMean (rowOf m.x hs r) hs)
        * rs (rowVar (rowOf m.x hs r) hs + lnEps α) * m.alpha i + m.beta i := by
  obtain ⟨hdiv, hmod⟩ := rowMajor_decode hs r i hi
  have hlt := rowMajor_lt bs hs r i hr hi
  show (if r * hs + i < bs * hs then _ else _) = _
  rw [if_pos hlt]
  simp only [hdiv, hmod]
  rw [kernelMean_eq _ hs 256 8 rfl]
  unfold kernelInvstd
  rw [kernelVar_eq _ hs 256 8 rfl]

/-- Characterization of the cache written by `ForwardPass::Run` for row `r`:
slot `2 r` holds the row mean, slot `2 r + 1` the inverse standard deviation. -/
theorem forwardRun_cache_eq (rs : α → α) (bs hs : ℕ) (m : LNMem α) (r : ℕ)
    (hr : r < bs) :
    (ForwardPassRun rs bs hs m).cache (2 * r) = rowMean (rowOf m.x hs r) hs
      ∧ (ForwardPassRun rs bs hs m).cache (2 * r + 1)
          = rs (rowVar (rowOf m.x hs r) hs + lnEps α) := by
  constructor
  · show (if 2 * r < bs * 2 then _ else _) = _
    rw [if_pos (by omega)]
    have hmod : 2 * r % 2 = 0 := by omega
    have hdiv : 2 * r / 2 = r := by omega
    rw [if_pos hmod, hdiv, kernelMean_eq _ hs 256 8 rfl]
  · show (if 2 * r + 1 < bs * 2 then _ else _) = _
    rw [if_pos (by omega)]
    have hmod : (2 * r + 1) % 2 = 1 := by omega
    have hdiv : (2 * r + 1) / 2 = r := by omega
    rw [hmod]
    have h10 : (1 : ℕ) ≠ 0 := by omega
    rw [if_neg h10, hdiv]
    unfold kernelInvstd
    rw [kernelVar_eq _ hs 256 8 rfl]

/-- The row mean only depends on the row's first `hidden` entries. -/
theorem rowMean_congr (f g : ℕ → α) (hidden : ℕ)
    (h : ∀ i, i < hidden → f i = g i) : rowMean f hidden = rowMean g hidden := by
  unfold rowMean
  congr 1
  exact Finset.sum_congr rfl fun i hi => h i (Finset.mem_range.mp hi)

/-- The row variance only depends on the row's first `hidden` entries. -/
theorem rowVar_congr (f g : ℕ → α) (hidden : ℕ)
    (h : ∀ i, i < hidden → f i = g i) : rowVar f hidden = rowVar g hidden := by
  unfold rowVar
  congr 1
  refine Finset.sum_congr rfl fun i hi => ?_
  rw [h i (Finset.mem_range.mp hi), rowMean_congr f g hidden h]

/-- Inside the row extent, row `r` of the permuted matrix is row `p r` of
the original. -/
theorem rowOf_permute (p : ℕ → ℕ) (x : ℕ → α) (hidden r i : ℕ) (hi : i < hidden) :
    rowOf (rowPermuteIdx p hidden x) hidden r i = rowOf x hidden (p r) i := by
  obtain ⟨hdiv, hmod⟩ := rowMajor_decode hidden r i hi
  unfold rowOf rowPermuteIdx
  rw [hdiv, hmod]

/-! The claims. -/

/-- C1: for every row `r < batch_size` and column `i < hidden_size`, the
layer-normalization output satisfies
`y[r][i] = (x[r][i] - mean(r)) * rsqrt(variance(r) + 1e-5) * alpha[i] + beta[i]`,
where `mean(r)` is the arithmetic mean of row `r` and `variance(r)` the
population variance of row `r`, with `alpha` and `beta` indexed per column
and shared across rows. -/
theorem claim_C1_layer_norm_output (rs : α → α) (bs hs : ℕ) (m : LNMem α)
    (r i : ℕ) (hr : r < bs) (hi : i < hs) :
    (ForwardPassRun rs bs hs m).y (r * hs + i)
      = (m.x (r * hs + i) - rowMean (rowOf m.x hs r) hs)
        * rs (rowVar (rowOf m.x hs r) hs + lnEps α) * m.alpha i + m.beta i :=
  forwardRun_y_eq rs bs hs m r i hr hi

/-- Witness for C1 at `batch_size = 2`, `hidden_size = 3`, row 1, column 2,
over `ℚ` with `rsqrt` instantiated to `id`. -/
theorem claim_C1_witness :
    1 < 2 ∧ 2 < 3 ∧
    (ForwardPassRun id 2 3 lnMemEx).y (1 * 3 + 2)
      = (lnMemEx.x (1 * 3 + 2) - rowMean (rowOf lnMemEx.x 3 1) 3)
        * id (rowVar (rowOf lnMemEx.x 3 1) 3 + lnEps ℚ)
        * lnMemEx.alpha 2 + lnMemEx.beta 2 :=
  ⟨by omega, by omega, claim_C1_layer_norm_output id 2 3 lnMemEx 1 2 (by omega) (by omega)⟩

/-- C2: under the hypothesis that the worker-group size is a power of two
(as launched, with group size 256), phase 1's strided per-worker partial sums
followed by the halving tree reduction yield exactly the sum of the row's
elements, from which the mean is derived; and phase 2's identical reduction
over squared deviations from that mean yields exactly the sum of squared
deviations, from which the variance is derived. -/
theorem claim_C2_reduction_refinement (f : ℕ → α) (hidden stride k : ℕ)
    (hk : stride = 2 ^ k) :
    rowSumKernel f hidden stride = ∑ i ∈ Finset.range hidden, f i
      ∧ kernelMean f hidden stride = rowMean f hidden
      ∧ rowSumKernel
          (fun i => (f i - kernelMean f hidden stride)
            * (f i - kernelMean f hidden stride)) hidden stride
          = ∑ i ∈ Finset.range hidden, (f i - rowMean f hidden) ^ 2
      ∧ kernelVar f hidden stride = rowVar f hidden := by
  refine ⟨rowSumKernel_eq f hidden stride k hk, kernelMean_eq f hidden stride k hk, ?_,
    kernelVar_eq f hidden stride k hk⟩
  rw [rowSumKernel_eq _ hidden stride k hk]
  refine Finset.sum_congr rfl fun i _ => ?_
  rw [kernelMean_eq f hidden stride k hk, sq]

/-- Witness for C2 at the launched group size `stride = 256 = 2 ^ 8`, on a
concrete row of rationals. -/
theorem claim_C2_witness :
    (256 : ℕ) = 2 ^ 8 ∧
    (rowSumKernel lnMemEx.x 3 256 = ∑ i ∈ Finset.range 3, lnMemEx.x i
      ∧ kernelMean lnMemEx.x 3 256 = rowMean lnMemEx.x 3
      ∧ rowSumKernel
          (fun i => (lnMemEx.x i - kernelMean lnMemEx.x 3 256)
            * (lnMemEx.x i - kernelMean lnMemEx.x 3 256)) 3 256
          = ∑ i ∈ Finset.range 3, (lnMemEx.x i - rowMean lnMemEx.x 3) ^ 2
      ∧ kernelVar lnMemEx.x 3 256 = rowVar lnMemEx.x 3) :=
  ⟨by norm_num, claim_C2_reduction_refinement lnMemEx.x 3 256 8 (by norm_num)⟩

/-- C3: for every row `r < batch_size` the per-row statistics are persisted
to the cache — `cache[2 r]` receives the row mean and `cache[2 r + 1]` the
inverse standard deviation `rsqrt(variance(r) + 1e-5)`, the very factor used
to compute the output `y` — unconditionally, whether or not a gradient pass
will read them. -/
theorem claim_C3_cache_persists (rs : α → α) (bs hs : ℕ) (m : LNMem α)
    (r i : ℕ) (hr : r < bs) (hi : i < hs) :
    (ForwardPassRun rs bs hs m).cache (2 * r) = rowMean (rowOf m.x hs r) hs
      ∧ (ForwardPassRun rs bs hs m).cache (2 * r + 1)
          = rs (rowVar (rowOf m.x hs r) hs + lnEps α)
      ∧ (ForwardPassRun rs bs hs m).y (r * hs + i)
          = (m.x (r * hs + i) - (ForwardPassRun rs bs hs m).cache (2 * r))
            * (ForwardPassRun rs bs hs m).cache (2 * r + 1)
            * m.alpha i + m.beta i := by
  obtain ⟨hc0, hc1⟩ := forwardRun_cache_eq rs bs hs m r hr
  exact ⟨hc0, hc1, by rw [hc0, hc1, forwardRun_y_eq rs bs hs m r i hr hi]⟩

/-- Witness for C3 at `batch_size = 2`, `hidden_size = 3`, row 1, column 0. -/
theorem claim_C3_witness :
    1 < 2 ∧ 0 < 3 ∧
    ((ForwardPassRun id 2 3 lnMemEx).cache (2 * 1) = rowMean (rowOf lnMemEx.x 3 1) 3
      ∧ (ForwardPassRun id 2 3 lnMemEx).cache (2 * 1 + 1)
          = id (rowVar (rowOf lnMemEx.x 3 1) 3 + lnEps ℚ)
      ∧ (ForwardPassRun id 2 3 lnMemEx).y (1 * 3 + 0)
          = (lnMemEx.x (1 * 3 + 0) - (ForwardPassRun id 2 3 lnMemEx).cache (2 * 1))
            * (ForwardPassRun id 2 3 lnMemEx).cache (2 * 1 + 1)
            * lnMemEx.alpha 0 + lnMemEx.beta 0) :=
  ⟨by omega, by omega, claim_C3_cache_persists id 2 3 lnMemEx 1 0 (by omega) (by omega)⟩

/-- C4: for every permutation `p` of the batch-row indices (any map sending
rows below `batch_size` to rows below `batch_size` suffices, each row being
processed independently), running the kernel on the row-permuted input
produces, at row `r`, exactly the output and cache of row `p r` of the
original input, and positions beyond the `batch_size * hidden_size` output
extent are untouched. -/
theorem claim_C4_row_permutation (rs : α → α) (bs hs : ℕ) (p : ℕ → ℕ)
    (m : LNMem α) (r i j : ℕ) (hp : ∀ s, s < bs → p s < bs)
    (hr : r < bs) (hi : i < hs) (hj : bs * hs ≤ j) :
    (ForwardPassRun rs bs hs { m with x := rowPermuteIdx p hs m.x }).y (r * hs + i)
        = (ForwardPassRun rs bs hs m).y (p r * hs + i)
      ∧ (ForwardPassRun rs bs hs { m with x := rowPermuteIdx p hs m.x }).cache (2 * r)
          = (ForwardPassRun rs bs hs m).cache (2 * p r)
      ∧ (ForwardPassRun rs bs hs { m with x := rowPermuteIdx p hs m.x }).cache (2 * r + 1)
          = (ForwardPassRun rs bs hs m).cache (2 * p r + 1)
      ∧ (ForwardPassRun rs bs hs { m with x := rowPermuteIdx p hs m.x }).y j = m.y j := by
  have hrow : ∀ i, i < hs →
      rowOf (rowPermuteIdx p hs m.x) hs r i = rowOf m.x hs (p r) i :=
    fun i hi => rowOf_permute p m.x hs r i hi
  obtain ⟨hc0, hc1⟩ :=
    forwardRun_cache_eq rs bs hs { m with x := rowPermuteIdx p hs m.x } r hr
  obtain ⟨hd0, hd1⟩ := forwardRun_cache_eq rs bs hs m (p r) (hp r hr)
  refine ⟨?_, ?_, ?_, ?_⟩
  · rw [forwardRun_y_eq rs bs hs _ r i hr hi,
      forwardRun_y_eq rs bs hs m (p r) i (hp r hr) hi]
    show (rowPermuteIdx p hs m.x (r * hs + i) - _) * _ * m.alpha i + m.beta i = _
    rw [show rowPermuteIdx p hs m.x (r * hs + i) = rowOf (rowPermuteIdx p hs m.x) hs r i from rfl,
      hrow i hi, rowMean_congr _ _ hs hrow, rowVar_congr _ _ hs hrow]
    rfl
  · rw [hc0, hd0, rowMean_congr _ _ hs hrow]
  · rw [hc1, hd1, rowVar_congr _ _ hs hrow]
  · show (if j < bs * hs then _ else _) = _
    rw [if_neg (by omega)]

/-- Witness for C4 with the swap of the two rows of a `2 × 2` input. -/
theorem claim_C4_witness :
    (∀ s, s < 2 → 1 - s < 2) ∧ 0 < 2 ∧ 1 < 2 ∧ 2 * 2 ≤ 5 ∧
    ((ForwardPassRun id 2 2 { lnMemEx with x := rowPermuteIdx (fun s => 1 - s) 2 lnMemEx.x }).y (0 * 2 + 1)
        = (ForwardPassRun id 2 2 lnMemEx).y ((fun s => 1 - s) 0 * 2 + 1)
      ∧ (ForwardPassRun id 2 2 { lnMemEx with x := rowPermuteIdx (fun s => 1 - s) 2 lnMemEx.x }).cache (2 * 0)
          = (ForwardPassRun id 2 2 lnMemEx).cache (2 * (fun s => 1 - s) 0)
      ∧ (ForwardPassRun id 2 2 { lnMemEx with x := rowPermuteIdx (fun s => 1 - s) 2 lnMemEx.x }).cache (2 * 0 + 1)
          = (ForwardPassRun id 2 2 lnMemEx).cache (2 * (fun s => 1 - s) 0 + 1)
      ∧ (ForwardPassRun id 2 2 { lnMemEx with x := rowPermuteIdx (fun s => 1 - s) 2 lnMemEx.x }).y 5
          = lnMemEx.y 5) :=
  ⟨fun s hs => by omega, by omega, by omega, by omega,
    claim_C4_row_permutation id 2 2 (fun s => 1 - s) lnMemEx 0 1 5
      (fun s hs => by show 1 - s < 2; omega) (by omega) (by omega) (by omega)⟩

/-- C5: on a row whose arithmetic mean is exactly `0` and whose population
variance is exactly `1`, with `alpha = 1` and `beta = 0` at the inspected
column, layer normalization reproduces the input scaled by
`rsqrt(1 + 1e-5)`. -/
theorem claim_C5_normalized_fixed_point (rs : α → α) (bs hs : ℕ) (m : LNMem α)
    (r i : ℕ) (hr : r < bs) (hi : i < hs)
    (hmean : rowMean (rowOf m.x hs r) hs = 0)
    (hvar : rowVar (rowOf m.x hs r) hs = 1)
    (ha : m.alpha i = 1) (hb : m.beta i = 0) :
    (ForwardPassRun rs bs hs m).y (r * hs + i)
      = m.x (r * hs + i) * rs (1 + lnEps α) := by
  rw [forwardRun_y_eq rs bs hs m r i hr hi, hmean, hvar, ha, hb]
  ring

/-- Witness for C5 on the single row `(1, -1)`, which has mean `0` and
population variance `1`. -/
theorem claim_C5_witness :
    0 < 1 ∧ 0 < 2
      ∧ rowMean (rowOf lnMemUnit.x 2 0) 2 = 0
      ∧ rowVar (rowOf lnMemUnit.x 2 0) 2 = 1
      ∧ lnMemUnit.alpha 0 = 1 ∧ lnMemUnit.beta 0 = 0
      ∧ (ForwardPassRun id 1 2 lnMemUnit).y (0 * 2 + 0)
          = lnMemUnit.x (0 * 2 + 0) * id (1 + lnEps ℚ) :=
  ⟨by omega, by omega,
    by norm_num [rowMean, rowOf, lnMemUnit, Finset.sum_range_succ],
    by norm_num [rowVar, rowMean, rowOf, lnMemUnit, Finset.sum_range_succ],
    rfl, rfl,
    claim_C5_normalized_fixed_point id 1 2 lnMemUnit 0 0 (by omega) (by omega)
      (by norm_num [rowMean, rowOf, lnMemUnit, Finset.sum_range_succ])
      (by norm_num [rowVar, rowMean, rowOf, lnMemUnit, Finset.sum_range_succ])
      rfl rfl⟩

/-- C6: with `time_steps = 0` the `GruInference` timestep loop issues no
`Iterate` calls, and the hidden-state buffer keeps exactly its
caller-initialized contents — all zeros after `h_dev.zero()` — whatever the
per-step transformer would have done. -/
theorem claim_C6_zero_timesteps (step : ℕ → (ℕ → α) → (ℕ → α))
    (time_steps batch_size input_size hidden_size : ℕ) (hts : time_steps = 0) :
    gruIterateCalls time_steps batch_size input_size hidden_size = []
      ∧ gruInferenceH step time_steps = fun _ => (0 : α) := by
  subst hts
  exact ⟨rfl, rfl⟩

/-- Witness for C6 over `ℚ` with an arbitrary concrete step transformer. -/
theorem claim_C6_witness :
    (0 : ℕ) = 0 ∧
    (gruIterateCalls 0 64 512 512 = []
      ∧ gruInferenceH (fun t h j => h j + (t : ℚ) + 1) 0 = fun _ => (0 : ℚ)) :=
  ⟨rfl, claim_C6_zero_timesteps (fun t h j => h j + (t : ℚ) + 1) 0 64 512 512 rfl⟩

/-- Helper: indexing the mapped range list underlying the call trace. -/
theorem gruIterateCalls_getElem (time_steps batch_size input_size hidden_size t : ℕ)
    (ht : t < time_steps) :
    (gruIterateCalls time_steps batch_size input_size hidden_size)[t]?
      = some { xOff := t * batch_size * input_size
               wxOff := t * batch_size * hidden_size * 3
               rhOff := 0 } := by
  unfold gruIterateCalls
  rw [List.getElem?_eq_getElem (by simpa using ht)]
  simp

/-- C7: the input-side pre-activation buffer holds
`time_steps * batch_size * hidden_size * 3` elements, allocated once before
the loop; the `Iterate` call at timestep `t` receives the slice starting at
offset `t * batch_size * hidden_size * 3`; each slice fits inside the
allocation, and the slices of two distinct timesteps are disjoint. -/
theorem claim_C7_wx_slices_disjoint
    (time_steps batch_size input_size hidden_size t u : ℕ)
    (ht : t < time_steps) (hu : u < time_steps) (hne : t ≠ u) :
    tmpWxSize time_steps batch_size hidden_size
        = time_steps * wxSliceLen batch_size hidden_size
      ∧ ((gruIterateCalls time_steps batch_size input_size hidden_size)[t]?).map GruCall.wxOff
          = some (t * batch_size * hidden_size * 3)
      ∧ t * batch_size * hidden_size * 3 + wxSliceLen batch_size hidden_size
          ≤ tmpWxSize time_steps batch_size hidden_size
      ∧ (t * batch_size * hidden_size * 3 + wxSliceLen batch_size hidden_size
            ≤ u * batch_size * hidden_size * 3
          ∨ u * batch_size * hidden_size * 3 + wxSliceLen batch_size hidden_size
            ≤ t * batch_size * hidden_size * 3) := by
  have hmul : ∀ a b : ℕ, a < b →
      a * batch_size * hidden_size * 3 + wxSliceLen batch_size hidden_size
        ≤ b * batch_size * hidden_size * 3 + 0 := by
    intro a b hab
    have h1 : (a + 1) * (batch_size * hidden_size * 3)
        ≤ b * (batch_size * hidden_size * 3) :=
      Nat.mul_le_mul_right _ (by omega)
    calc a * batch_size * hidden_size * 3 + wxSliceLen batch_size hidden_size
        = (a + 1) * (batch_size * hidden_size * 3) := by unfold wxSliceLen; ring
      _ ≤ b * (batch_size * hidden_size * 3) := h1
      _ = b * batch_size * hidden_size * 3 + 0 := by ring
  refine ⟨by unfold tmpWxSize wxSliceLen; ring, ?_, ?_, ?_⟩
  · rw [gruIterateCalls_getElem _ _ _ _ t ht]
    rfl
  · have := hmul t time_steps (by omega)
    unfold tmpWxSize wxSliceLen at *
    calc t * batch_size * hidden_size * 3 + batch_size * hidden_size * 3
        ≤ time_steps * batch_size * hidden_size * 3 + 0 := this
      _ = time_steps * batch_size * hidden_size * 3 := by omega
  · rcases Nat.lt_or_ge t u with h | h
    · exact Or.inl (by have := hmul t u (by omega); omega)
    · exact Or.inr (by have := hmul u t (by omega); omega)

/-- Witness for C7 at `time_steps = 3`, slices of timesteps `0` and `2`. -/
theorem claim_C7_witness :
    0 < 3 ∧ 2 < 3 ∧ (0 : ℕ) ≠ 2 ∧
    (tmpWxSize 3 64 512 = 3 * wxSliceLen 64 512
      ∧ ((gruIterateCalls 3 64 512 512)[0]?).map GruCall.wxOff
          = some (0 * 64 * 512 * 3)
      ∧ 0 * 64 * 512 * 3 + wxSliceLen 64 512 ≤ tmpWxSize 3 64 512
      ∧ (0 * 64 * 512 * 3 + wxSliceLen 64 512 ≤ 2 * 64 * 512 * 3
          ∨ 2 * 64 * 512 * 3 + wxSliceLen 64 512 ≤ 0 * 64 * 512 * 3)) :=
  ⟨by omega, by omega, by omega,
    claim_C7_wx_slices_disjoint 3 64 512 512 0 2 (by omega) (by omega) (by omega)⟩

/-- C8: the recurrent pre-activation scratch is single-buffered — one
allocation of `batch_size * hidden_size * 3` elements — and the `Iterate`
calls of any two timesteps receive the identical buffer: both are handed
offset `0` into that one allocation. -/
theorem claim_C8_rh_single_buffer
    (time_steps batch_size input_size hidden_size t u : ℕ)
    (ht : t < time_steps) (hu : u < time_steps) :
    tmpRhSize batch_size hidden_size = batch_size * hidden_size * 3
      ∧ ((gruIterateCalls time_steps batch_size input_size hidden_size)[t]?).map GruCall.rhOff
          = some 0
      ∧ ((gruIterateCalls time_steps batch_size input_size hidden_size)[u]?).map GruCall.rhOff
          = some 0 := by
  refine ⟨rfl, ?_, ?_⟩
  · rw [gruIterateCalls_getElem _ _ _ _ t ht]; rfl
  · rw [gruIterateCalls_getElem _ _ _ _ u hu]; rfl

/-- Witness for C8 at `time_steps = 1000`, timesteps `0` and `999`. -/
theorem claim_C8_witness :
    0 < 1000 ∧ 999 < 1000 ∧
    (tmpRhSize 64 512 = 64 * 512 * 3
      ∧ ((gruIterateCalls 1000 64 512 512)[0]?).map GruCall.rhOff = some 0
      ∧ ((gruIterateCalls 1000 64 512 512)[999]?).map GruCall.rhOff = some 0) :=
  ⟨by omega, by omega,
    claim_C8_rh_single_buffer 1000 64 512 512 0 999 (by omega) (by omega)⟩

/-- C9: the launch rounds the worker-row count up to `ceil(batch_size/4) * 4`
(at most 3 excess rows); a worker row at or beyond `batch_size` touches no
memory at all, and an in-range worker row reads `x` only below
`batch_size * hidden_size`, writes `y` only below `batch_size * hidden_size`,
and writes `cache` only below `2 * batch_size`; correspondingly, the kernel
leaves `y` untouched from `batch_size * hidden_size` on and `cache`
untouched from `2 * batch_size` on. -/
theorem claim_C9_guard_bounds (rs : α → α) (bs hs w j : ℕ) (m : LNMem α)
    (hw : w < numWorkerRows bs) :
    bs ≤ numWorkerRows bs
      ∧ numWorkerRows bs ≤ bs + 3
      ∧ (bs ≤ w → xReadIndices bs hs w = ∅ ∧ yWriteIndices bs hs w = ∅
          ∧ cacheWriteIndices bs w = ∅)
      ∧ (j ∈ xReadIndices bs hs w → j < bs * hs)
      ∧ (j ∈ yWriteIndices bs hs w → j < bs * hs)
      ∧ (j ∈ cacheWriteIndices bs w → j < 2 * bs)
      ∧ (bs * hs ≤ j → (ForwardPassRun rs bs hs m).y j = m.y j)
      ∧ (2 * bs ≤ j → (ForwardPassRun rs bs hs m).cache j = m.cache j) := by
  have hrow : ∀ hidden, j ∈ (Finset.range hidden).image (fun i => w * hidden + i) →
      w < bs → j < bs * hidden := by
    intro hidden hmem hwbs
    obtain ⟨i, hi, hij⟩ := Finset.mem_image.mp hmem
    rw [← hij]
    exact rowMajor_lt bs hidden w i hwbs (Finset.mem_range.mp hi)
  refine ⟨?_, ?_, ?_, ?_, ?_, ?_, ?_, ?_⟩
  · unfold numWorkerRows gridDimX; omega
  · unfold numWorkerRows gridDimX; omega
  · intro hbw
    have hnw : ¬ w < bs := by omega
    unfold xReadIndices yWriteIndices cacheWriteIndices
    simp only [if_neg hnw]
    exact ⟨trivial, trivial, trivial⟩
  · intro hmem
    unfold xReadIndices at hmem
    by_cases hwbs : w < bs
    · rw [if_pos hwbs] at hmem; exact hrow hs hmem hwbs
    · rw [if_neg hwbs] at hmem; exact absurd hmem (Finset.not_mem_empty j)
  · intro hmem
    unfold yWriteIndices at hmem
    by_cases hwbs : w < bs
    · rw [if_pos hwbs] at hmem; exact hrow hs hmem hwbs
    · rw [if_neg hwbs] at hmem; exact absurd hmem (Finset.not_mem_empty j)
  · intro hmem
    unfold cacheWriteIndices at hmem
    by_cases hwbs : w < bs
    · rw [if_pos hwbs] at hmem
      simp only [Finset.mem_insert, Finset.mem_singleton] at hmem
      omega
    · rw [if_neg hwbs] at hmem; exact absurd hmem (Finset.not_mem_empty j)
  · intro hj
    show (if j < bs * hs then _ else _) = _
    rw [if_neg (by omega)]
  · intro hj
    show (if j < bs * 2 then _ else _) = _
    rw [if_neg (by omega)]

/-- Witness for C9 at `batch_size = 5` (grid rounds up to 8 worker rows),
exercising excess worker row `6`. -/
theorem claim_C9_witness :
    6 < numWorkerRows 5 ∧
    (5 ≤ numWorkerRows 5
      ∧ numWorkerRows 5 ≤ 5 + 3
      ∧ (5 ≤ 6 → xReadIndices 5 3 6 = ∅ ∧ yWriteIndices 5 3 6 = ∅
          ∧ cacheWriteIndices 5 6 = ∅)
      ∧ (2 ∈ xReadIndices 5 3 6 → 2 < 5 * 3)
      ∧ (2 ∈ yWriteIndices 5 3 6 → 2 < 5 * 3)
      ∧ (2 ∈ cacheWriteIndices 5 6 → 2 < 2 * 5)
      ∧ (5 * 3 ≤ 2 → (ForwardPassRun id 5 3 lnMemEx).y 2 = lnMemEx.y 2)
      ∧ (2 * 5 ≤ 2 → (ForwardPassRun id 5 3 lnMemEx).cache 2 = lnMemEx.cache 2)) :=
  ⟨by decide, claim_C9_guard_bounds id 5 3 6 2 lnMemEx (by decide)⟩

/-- C10: the kernel writes only `y` and `cache`; whatever the launch
parameters, the input `x` and the affine vectors `alpha` and `beta` come out
of the kernel exactly as they went in. -/
theorem claim_C10_const_inputs (rs : α → α) (batch_size hidden_size stride : ℕ)
    (m : LNMem α) :
    (LayerNorm rs batch_size hidden_size stride m).x = m.x
      ∧ (LayerNorm rs batch_size hidden_size stride m).alpha = m.alpha
      ∧ (LayerNorm rs batch_size hidden_size stride m).beta = m.beta
      ∧ (ForwardPassRun rs batch_size hidden_size m).x = m.x
      ∧ (ForwardPassRun rs batch_size hidden_size m).alpha = m.alpha
      ∧ (ForwardPassRun rs batch_size hidden_size m).beta = m.beta :=
  ⟨rfl, rfl, rfl, rfl, rfl, rfl⟩

end Haste
